import Mathlib

set_option maxRecDepth 10000

/-!
Verification development for the appvkek repository (src/main.rs, src/util.rs,
src/types.rs): a CLI tool that scans an owner wallet's transaction history for
ERC-20 approve calls and queries the current allowance for every
(contract, spender) pair it finds.

Strings are modelled as lists of Unicode code points (`Str := List Nat`);
all inputs of interest are ASCII hex strings, for which Rust byte indexing
and char indexing coincide.  Remote services (the explorer listing
transactions, the JSON-RPC node answering contract reads) are modelled as
oracles passed in explicitly.  Rust panics are modelled by a dedicated
`crash` constructor, `std::process::exit(n)` by an `exited n` constructor.
-/

/-- A string, as its list of Unicode code points. -/
abbrev Str := List Nat

/-- Code points of a Lean string literal (used to write concrete inputs). -/
def strLit (s : String) : Str := s.toList.map Char.toNat

/-- ASCII lower-casing of one code point, as done by Rust `to_lowercase` on
the ASCII range.  (On non-ASCII letters Rust differs, but no non-ASCII
character lower-cases into the ASCII hex range, so the address-format regex
below is unaffected.) -/
def charToLowerA (c : Nat) : Nat := if 65 ≤ c ∧ c ≤ 90 then c + 32 else c

/-- Rust `str::to_lowercase`, restricted to the ASCII case mapping. -/
def toLowerStr (s : Str) : Str := s.map charToLowerA

/-- Rust `str::starts_with`. -/
def strStarts (s pre : Str) : Bool := decide (s.take pre.length = pre)

/-- One lower-case hexadecimal digit, `[0-9a-f]` of the source regex. -/
def isLcHexDigit (c : Nat) : Bool :=
  decide ((48 ≤ c ∧ c ≤ 57) ∨ (97 ≤ c ∧ c ≤ 102))

/-- Exactly forty `[0-9a-f]` characters (the `[0-9a-f]{40}$` part). -/
def isHex40 (l : Str) : Bool := l.length == 40 && l.all isLcHexDigit

/-- Semantics of the anchored regex `^(0x)?[0-9a-f]{40}$` from
`validate_address_format` (src/util.rs:26): either the first two characters
are `0x` and the rest is forty lower-case hex digits, or the whole string is
forty lower-case hex digits. -/
def matchesAddrRegex (l : Str) : Bool :=
  (decide (l.take 2 = [48, 120]) && isHex40 (l.drop 2)) || isHex40 l

/-- src/util.rs:24-29 `validate_address_format`: lower-case the address and
match it against `^(0x)?[0-9a-f]{40}$`. -/
def validate_address_format (address : Str) : Bool :=
  matchesAddrRegex (toLowerStr address)

/-- Value of one hex digit as accepted by the `hex` crate
(`0-9`, `a-f`, `A-F`). -/
def hexVal (c : Nat) : Option Nat :=
  if 48 ≤ c ∧ c ≤ 57 then some (c - 48)
  else if 97 ≤ c ∧ c ≤ 102 then some (c - 87)
  else if 65 ≤ c ∧ c ≤ 70 then some (c - 55)
  else none

/-- `hex::decode`: pairs of hex digits to bytes; fails on an odd length or a
non-hex character. -/
def hexDecode : Str → Option (List Nat)
  | [] => some []
  | [_] => none
  | c1 :: c2 :: rest =>
    match hexVal c1, hexVal c2, hexDecode rest with
    | some hi, some lo, some bs => some ((16 * hi + lo) :: bs)
    | _, _, _ => none

/-- One byte as two lower-case hex characters (`hex::encode`). -/
def hexEncodeByte (b : Nat) : Str :=
  [if b / 16 < 10 then 48 + b / 16 else 87 + b / 16,
   if b % 16 < 10 then 48 + b % 16 else 87 + b % 16]

/-- Concatenation of a list of lists (used for hex encoding and for merging
the per-chunk batches back into one report). -/
def concatAll {α : Type} : List (List α) → List α
  | [] => []
  | c :: cs => c ++ concatAll cs

/-- `hex::encode` of a byte sequence. -/
def hexEncode (bs : List Nat) : Str := concatAll (bs.map hexEncodeByte)

/-- Result of a remote read (a `web3` call): the value, or an error string. -/
inductive RRes (α : Type) where
  | ok (v : α)
  | err (e : Str)
deriving DecidableEq

/-- Whether a remote read failed. -/
def RRes.isErr {α : Type} : RRes α → Bool
  | .ok _ => false
  | .err _ => true

/-- Result of `get_address_from_str` (src/util.rs:75-81): an `Ok` 20-byte
address, a format `Err`, or a panic (`crash`). -/
inductive AddrOut where
  | ok (bytes : List Nat)
  | err (msg : Str)
  | crash
deriving DecidableEq

/-- Whether `get_address_from_str` returned `Ok`. -/
def AddrOut.isOkA : AddrOut → Bool
  | .ok _ => true
  | _ => false

/-- src/util.rs:75-81 `get_address_from_str`: validate the format, strip the
first two characters, `hex::decode` (with `.unwrap()`, so a decode error is a
panic), and build the address with `Address::from_slice`, which asserts that
exactly 20 bytes were decoded (a failed assertion is a panic). -/
def get_address_from_str (address : Str) : AddrOut :=
  if validate_address_format address = false then
    .err (strLit "Error address is not in the correct format; addr=" ++ address)
  else
    match hexDecode (address.drop 2) with
    | none => .crash
    | some bytes => if bytes.length = 20 then .ok bytes else .crash

/-- Result of `perform_check_is_eoa` (src/util.rs:37-69). -/
inductive EoaOut where
  | ok (is_eoa : Bool)
  | err (msg : Str)
  | crash
deriving DecidableEq

/-- src/util.rs:37-69 `perform_check_is_eoa`: validate the format, strip the
first two characters and `hex::decode` them (a decode error is returned as
`Err` here), build the address with `Address::from_slice` (asserts 20 bytes,
else panic), query the deployed code through the node (modelled by
`codeOracle`, keyed by the decoded address bytes), hex-encode it and report
EOA iff the encoding is empty. -/
def perform_check_is_eoa (codeOracle : List Nat → RRes (List Nat))
    (address : Str) : EoaOut :=
  if validate_address_format address = false then
    .err (strLit "Error address is not in the correct format; addr=" ++ address)
  else
    match hexDecode (address.drop 2) with
    | none => .err (strLit "Error hex decoding of address")
    | some bytes =>
      if bytes.length = 20 then
        match codeOracle bytes with
        | .err _ => .err (strLit "Error awaiting result for code from address")
        | .ok code => if 0 < (hexEncode code).length then .ok false else .ok true
      else .crash

/-- Consecutive full 64-character words of a hex string: the
`while offset_i + 64 <= len` loop of src/util.rs:117-120.  The fuel argument
bounds the iteration count; `l.length` iterations always suffice since each
pass consumes 64 characters. -/
def chunksGo : Nat → Str → List Str
  | 0, _ => []
  | fuel + 1, l =>
    if 64 ≤ l.length then l.take 64 :: chunksGo fuel (l.drop 64) else []

/-- The 64-character words collected by the while loop of
`parse_256_method_arguments`. -/
def chunks64 (l : Str) : List Str := chunksGo l.length l

/-- Result of `parse_256_method_arguments`: the argument words, the
malformed-call-data error, or a panic (`crash`). -/
inductive ParseOut where
  | ok (words : List Str)
  | err (msg : Str)
  | crash
deriving DecidableEq

/-- The error message of src/util.rs:110-111. -/
def errMsgNotLongEnough : Str :=
  strLit "Input hex string length is not long enough to be parsed.\nIt needs to have at least 64 characters in length included with prefix of 0x"

/-- src/util.rs:100-123 `parse_256_method_arguments`: an empty input returns
`Ok` with no words; otherwise the slice `&long_hex_str[10..]` drops the `0x`
prefix and the 8-character method id (for an input of length 1 to 9 this
slice is out of bounds, a panic); a remainder shorter than 64 characters is
the malformed-call-data error; otherwise the while loop collects every full
64-character word, silently dropping a trailing partial word. -/
def parse_256_method_arguments (long_hex_str : Str) : ParseOut :=
  if long_hex_str.length = 0 then .ok []
  else if long_hex_str.length < 10 then .crash
  else
    let arguments_hex_str := long_hex_str.drop 10
    if arguments_hex_str.length < 64 then .err errMsgNotLongEnough
    else .ok (chunks64 arguments_hex_str)

/-- src/types.rs:4-21 also defines the CLI arguments; only the wallet address
matters here.  A normal transaction as returned by the explorer
(`evmscan` `get_list_normal_transactions`): sender, recipient, error flag and
raw call data.  `from` is a Lean keyword, hence the field name `from_addr`. -/
structure Tx where
  from_addr : Str
  to_addr : Str
  is_error : Bool
  input : Str
deriving DecidableEq

/-- The relationship map `ct_txs : HashMap<String, HashMap<String, u8>>` of
src/main.rs:158, modelled by its contents: an insertion-ordered association
list from contract address to the list of spender keys (the inner map only
ever stores the dummy value 0, so only its key set matters). -/
abbrev RelMap := List (Str × List Str)

/-- `ct_txs.contains_key(k)`. -/
def relContains (m : RelMap) (k : Str) : Bool := m.any (fun p => decide (p.1 = k))

/-- src/main.rs:174-176: insert an empty spender map for `k` unless present. -/
def relEnsureKey (m : RelMap) (k : Str) : RelMap :=
  if relContains m k then m else m ++ [(k, [])]

/-- src/main.rs:202-207: add spender `s` under contract `k` unless already
present (`val_hashmap.contains_key` guard before the insert). -/
def relAddSpender (m : RelMap) (k s : Str) : RelMap :=
  m.map (fun p =>
    if p.1 = k then (p.1, if p.2.any (fun y => decide (y = s)) then p.2 else p.2 ++ [s])
    else p)

/-- Whether the relationship map relates contract `c` to spender `s`. -/
def relHasPair (m : RelMap) (c s : Str) : Bool :=
  m.any (fun p => decide (p.1 = c) && p.2.any (fun y => decide (y = s)))

/-- The method id of `approve(address,uint256)` (src/main.rs:173). -/
def SEL : Str := strLit "0x095ea7b3"

/-- The inclusion test of src/main.rs:173:
`tx.from == owner_address && !tx.is_error && tx.input.starts_with("0x095ea7b3")`,
where `owner_address` is the already lower-cased owner. -/
def includeTx (owner_address : Str) (tx : Tx) : Bool :=
  decide (tx.from_addr = owner_address) && !tx.is_error && strStarts tx.input SEL

/-- src/main.rs:199-200: the spender address is the first argument word with
its first 24 characters removed and `0x` prepended. -/
def spenderFromArg (w : Str) : Str := strLit "0x" ++ w.drop 24

/-- Outcome of the extraction loop: the relationship map, or a process exit
(`std::process::exit(code)`; a Rust panic terminates with code 101). -/
inductive ExtractOut where
  | ok (m : RelMap)
  | exited (code : Nat)
deriving DecidableEq

/-- The body of the `for tx in txs` loop of src/main.rs:171-209 for one
transaction: filter by `includeTx`; ensure the contract key exists; parse the
call data (a parse error is `exit(1)`, src/main.rs:191-194; fewer than two
words is `exit(1)`, src/main.rs:183-187); insert the spender extracted from
argument word 0. -/
def stepTx (owner_address : Str) (m : RelMap) (tx : Tx) : ExtractOut :=
  if includeTx owner_address tx then
    let m1 := relEnsureKey m tx.to_addr
    match parse_256_method_arguments tx.input with
    | .crash => .exited 101
    | .err _ => .exited 1
    | .ok arguments =>
      if arguments.length < 2 then .exited 1
      else .ok (relAddSpender m1 tx.to_addr (spenderFromArg (arguments.headD [])))
  else .ok m

/-- The whole `for tx in txs` loop of src/main.rs:171-209. -/
def extractLoop (owner_address : Str) : List Tx → RelMap → ExtractOut
  | [], m => .ok m
  | tx :: rest, m =>
    match stepTx owner_address m tx with
    | .exited c => .exited c
    | .ok m2 => extractLoop owner_address rest m2

/-- Relationship extraction from a transaction history, including the
lower-casing of the owner address at src/main.rs:160. -/
def extract (owner : Str) (txs : List Tx) : ExtractOut :=
  extractLoop (toLowerStr owner) txs []

/-- The remote state of one token contract, as seen through web3: the result
of `create_contract` (local ABI parsing and address validation,
src/util.rs:131-150), and of the `name`, `decimals` and per-spender
`allowance` reads. -/
structure ContractOracle where
  create_res : RRes Unit
  name_res : RRes Str
  decimals_res : RRes Nat
  allowance_res : Str → RRes Nat

/-- src/types.rs:25-39 `TokenContractWithSpenderAllowances`.  The source
stores each allowance as the `f64` value `raw / 10^decimals`
(src/main.rs:87); floating point is not modelled, so the exact pair
`(raw, decimals)` that value is computed from is recorded instead. -/
structure TokenContractWithSpenderAllowances where
  name : Str
  address : Str
  decimals : Nat
  spender_allowances : List (Str × (Nat × Nat))
deriving DecidableEq

/-- `HashMap::insert` contents semantics for the spender-allowances map. -/
def insertOverwrite (m : List (Str × (Nat × Nat))) (k : Str) (v : Nat × Nat) :
    List (Str × (Nat × Nat)) :=
  if m.any (fun p => decide (p.1 = k)) then
    m.map (fun p => if p.1 = k then (k, v) else p)
  else m ++ [(k, v)]

/-- Result of `query` (src/main.rs:33-91): the report structure, or the error
pair `(token_contract_address, error_message)`. -/
inductive QueryOut where
  | ok (r : TokenContractWithSpenderAllowances)
  | err (contract_address msg : Str)
deriving DecidableEq

/-- The contract address carried by an error report entry. -/
def QueryOut.errAddr : QueryOut → Option Str
  | .err a _ => some a
  | .ok _ => none

/-- One remote read issued by `query`. -/
inductive RpcCall where
  | nameCall
  | decimalsCall
  | allowanceCall (spender : Str)
deriving DecidableEq

/-- The `for spender in spenders` loop of src/main.rs:66-88: query each
allowance in turn, aborting the whole contract's report on the first failure
(src/main.rs:72-75); on success insert the spender with its allowance.  The
`BSCU256::from_dec_str` reconversion (src/main.rs:79-85) parses the decimal
rendering of a `U256` and cannot fail, so it is modelled as succeeding.
Returns the result together with the allowance reads that were issued. -/
def queryGo (o : ContractOracle) (contract_address owner_address : Str)
    (acc : TokenContractWithSpenderAllowances) :
    List Str → QueryOut × List RpcCall
  | [] => (.ok acc, [])
  | spender :: rest =>
    match o.allowance_res spender with
    | .err e =>
      (.err contract_address
        (strLit "Error querying for allowance balance for contract-addr=" ++
          contract_address ++ strLit ", owner-addr=" ++ owner_address ++
          strLit ", spender-addr=" ++ spender ++ strLit "; err=" ++ e),
       [.allowanceCall spender])
    | .ok raw =>
      let acc2 := { acc with
        spender_allowances :=
          insertOverwrite acc.spender_allowances spender (raw, acc.decimals) }
      let r := queryGo o contract_address owner_address acc2 rest
      (r.1, .allowanceCall spender :: r.2)

/-- src/main.rs:33-91 `query`: create the contract handle (an error aborts
with the contract address and the error text); issue the `name` and
`decimals` reads concurrently via `futures::join!` (both are always issued;
errors are then checked, `name` first); then query every spender's
allowance.  Returns the report outcome together with the list of remote
reads that were issued. -/
def query (o : ContractOracle) (contract_address owner_address : Str)
    (spenders : List Str) : QueryOut × List RpcCall :=
  match o.create_res with
  | .err e => (.err contract_address e, [])
  | .ok _ =>
    let metaCalls : List RpcCall := [.nameCall, .decimalsCall]
    match o.name_res with
    | .err e =>
      (.err contract_address
        (strLit "Error in querying top-level query (name); err=" ++ e), metaCalls)
    | .ok nm =>
      match o.decimals_res with
      | .err e =>
        (.err contract_address
          (strLit "Error in querying top-level query (decimals); err=" ++ e),
         metaCalls)
      | .ok decs =>
        let init : TokenContractWithSpenderAllowances :=
          ⟨nm, contract_address, decs, []⟩
        let r := queryGo o contract_address owner_address init spenders
        (r.1, metaCalls ++ r.2)

/-- The chunk-size constant of src/main.rs:219. -/
def RPC_RATE_LIMIT : Nat := 2000

/-- src/main.rs:220: `(len as f64 / C as f64).ceil() as usize`, i.e. the
ceiling of `n / C` (the `f64` round trip is exact for every realistic list
length). -/
def numOutputsArray (n C : Nat) : Nat := (n + C - 1) / C

/-- The `while running_added_item < C && i*C + running_added_item < len` loop
of src/main.rs:230-237, which collects the elements of chunk `i`.  Returns
the collected elements and the final `running_added_item`.  The fuel bounds
the iteration count; `C - running` iterations always suffice. -/
def innerWhileGo {α : Type} (v : List α) (C iC : Nat) :
    Nat → Nat → List α × Nat
  | 0, running => ([], running)
  | fuel + 1, running =>
    if running < C then
      if h : iC + running < v.length then
        let r := innerWhileGo v C iC fuel (running + 1)
        (v.get ⟨iC + running, h⟩ :: r.1, r.2)
      else ([], running)
    else ([], running)

/-- The inner while loop of src/main.rs:230-237, started with its available
fuel. -/
def innerWhile {α : Type} (v : List α) (C iC running : Nat) : List α × Nat :=
  innerWhileGo v C iC (C - running) running

/-- The `for i in 0..num_outputs_array` loop of src/main.rs:226-261, recorded
as the list of chunks it processes: collect chunk `i`; if
`i*C + running_added_item >= len` stop after this chunk (src/main.rs:255-257),
otherwise reset `running_added_item` to 0 and continue.  The fuel bounds the
iteration count; `num` iterations always suffice. -/
def outerForGo {α : Type} (v : List α) (C num : Nat) :
    Nat → Nat → Nat → List (List α)
  | 0, _, _ => []
  | fuel + 1, i, running =>
    if i < num then
      let r := innerWhile v C (i * C) running
      if v.length ≤ i * C + r.2 then [r.1]
      else r.1 :: outerForGo v C num fuel (i + 1) 0
    else []

/-- The chunks processed by the batching loop of src/main.rs:219-261 for a
contract list `v` and chunk size `C`. -/
def buildChunks {α : Type} (v : List α) (C : Nat) : List (List α) :=
  outerForGo v C (numOutputsArray v.length C) (numOutputsArray v.length C) 0 0

/-- The per-contract report entries produced by the batching loop of
src/main.rs:219-261: the relationship list is cut into `RPC_RATE_LIMIT`-sized
chunks, processed strictly in order; within a chunk every contract is queried
(concurrently in the source; `futures::future::join_all` returns the results
in contract order) and each result is rendered in order, `Ok` as a normal
report and `Err` as an `[Error] address - message` line. -/
def runBatches (o : Str → ContractOracle) (owner_address : Str)
    (rel : RelMap) : List QueryOut :=
  concatAll
    ((buildChunks rel RPC_RATE_LIMIT).map
      (fun chunk => chunk.map (fun p => (query (o p.1) p.1 owner_address p.2).1)))

/-- Outcome of a run of `main` from src/main.rs:152 on: the final list of
per-contract report entries, or a process exit with the given code. -/
inductive MainOut where
  | ok (entries : List QueryOut)
  | exited (code : Nat)
deriving DecidableEq

/-- src/main.rs:152-261, after the chain/EOA gates: lower-case the owner
address (line 160); fetch the transaction history (modelled by `hist`; a
fetch failure is `exit(1)`, lines 211-214); run the extraction loop (whose
failures are process exits); run the chunked query batches and print the
per-contract entries.  Per-contract query failures are printed as `[Error]`
lines and never exit, so a run that reaches the batching phase ends with
exit code 0. -/
def mainModel (hist : RRes (List Tx)) (o : Str → ContractOracle)
    (owner_input : Str) : MainOut :=
  let owner_address := toLowerStr owner_input
  match hist with
  | .err _ => .exited 1
  | .ok txs =>
    match extractLoop owner_address txs [] with
    | .exited c => .exited c
    | .ok rel => .ok (runBatches o owner_address rel)

/-- Modelled from the spec: the spec-side reading of `validate_format`,
"true iff, ignoring an optional 0x prefix and case, the string is exactly 40
hexadecimal characters".  A hexadecimal character ignoring case is
`[0-9a-fA-F]`; the optional prefix, ignoring case, is `0x` or `0X`. -/
def isHexDigitAnyCase (c : Nat) : Bool :=
  decide ((48 ≤ c ∧ c ≤ 57) ∨ (97 ≤ c ∧ c ≤ 102) ∨ (65 ≤ c ∧ c ≤ 70))

/-- Modelled from the spec: `validate_format` as the spec states it (see
`isHexDigitAnyCase`). -/
def specValidFormat (a : Str) : Bool :=
  ((decide (a.take 2 = [48, 120]) || decide (a.take 2 = [48, 88])) &&
      (a.drop 2).length == 40 && (a.drop 2).all isHexDigitAnyCase) ||
    (a.length == 40 && a.all isHexDigitAnyCase)

/-- Modelled from the spec: ABI encoding of a canonical `0x`-prefixed 20-byte
address as a left-zero-padded 32-byte (64 hex character) argument word. -/
def abi_encode_address_word (addr : Str) : Str :=
  List.replicate 24 48 ++ addr.drop 2

/-- The transaction decodes to fewer than two argument words, or fails to
decode at all (the two fatal conditions of src/main.rs:179-195). -/
def decodeFatal (tx : Tx) : Bool :=
  match parse_256_method_arguments tx.input with
  | .ok ws => decide (ws.length < 2)
  | .err _ => true
  | .crash => true

/-- Concrete 64-character argument word: 24 zero characters followed by
40 `d` characters (a left-padded address word). -/
def wordDs : Str := List.replicate 24 48 ++ List.replicate 40 100

/-- Concrete 64-character argument word of zero characters (an amount). -/
def wordZeros : Str := List.replicate 64 48

/-- Concrete 64-character argument word of `1` characters (another amount). -/
def wordOnes : Str := List.replicate 64 49

/-- Concrete lower-case owner address `0xaaa...a`. -/
def ownerAs : Str := strLit "0xaaaaaaaaaaaaaaaaaaaaaaaaaaaaaaaaaaaaaaaa"

/-- The same owner address in upper case. -/
def ownerAsUc : Str := strLit "0xAAAAAAAAAAAAAAAAAAAAAAAAAAAAAAAAAAAAAAAA"

/-- Concrete lower-case contract address `0xccc...c`. -/
def ctLc : Str := strLit "0xcccccccccccccccccccccccccccccccccccccccc"

/-- The same contract address in upper case. -/
def ctUc : Str := strLit "0xCCCCCCCCCCCCCCCCCCCCCCCCCCCCCCCCCCCCCCCC"

/-- The spender address encoded in `wordDs`. -/
def spDs : Str := strLit "0x" ++ List.replicate 40 100

/-- Well-formed approve call data: selector, spender word, amount word. -/
def inputGood : Str := SEL ++ wordDs ++ wordZeros

/-- An included approve transaction with well-formed call data. -/
def txGood : Tx := ⟨ownerAs, ctLc, false, inputGood⟩

/-- The same transaction with the recipient address in upper case. -/
def txGoodUc : Tx := ⟨ownerAs, ctUc, false, inputGood⟩

/-- The same transaction with a different amount word. -/
def txGood2 : Tx := ⟨ownerAs, ctLc, false, SEL ++ wordDs ++ wordOnes⟩

/-- The same transaction with the error flag set. -/
def txErrFlag : Tx := ⟨ownerAs, ctLc, true, inputGood⟩

/-- An included approve transaction whose call data has only one word. -/
def txShort : Tx := ⟨ownerAs, ctLc, false, SEL ++ wordDs⟩

/-- A contract oracle whose reads all succeed. -/
def oracleOkEmpty : ContractOracle :=
  ⟨.ok (), .ok (strLit "TOK"), .ok 2, fun _ => .ok 500⟩

/-- A contract oracle whose `name` read fails. -/
def oracleNameErr : ContractOracle :=
  ⟨.ok (), .err (strLit "boom"), .ok 2, fun _ => .ok 1⟩

/-- The all-ok oracle for every contract address. -/
def oracleConstOk : Str → ContractOracle := fun _ => oracleOkEmpty

/-- A code oracle reporting empty deployed code everywhere. -/
def codeOracleEmpty : List Nat → RRes (List Nat) := fun _ => RRes.ok []

/-- Concrete bare 40-hex-digit address `aaa...a` without the `0x` prefix. -/
def addr40 : Str := List.replicate 40 97

/-- Closed form of the word-collecting while loop: it returns one 64-character
slice per full word of the input. -/
theorem chunksGo_spec (fuel : Nat) : ∀ l : Str, l.length ≤ fuel →
    chunksGo fuel l =
      (List.range (l.length / 64)).map (fun i => (l.drop (64 * i)).take 64) := by
  induction fuel with
  | zero =>
    intro l h
    have hl : l = [] := List.eq_nil_of_length_eq_zero (by omega)
    subst hl
    simp [chunksGo]
  | succ n ih =>
    intro l h
    by_cases h64 : 64 ≤ l.length
    · simp only [chunksGo, if_pos h64]
      rw [ih (l.drop 64) (by simp [List.length_drop]; omega)]
      have hdiv : l.length / 64 = (l.length - 64) / 64 + 1 := by
        conv_lhs => rw [show l.length = (l.length - 64) + 64 from by omega]
        exact Nat.add_div_right _ (by norm_num)
      rw [hdiv, List.range_succ_eq_map]
      simp only [List.map_cons, List.map_map, List.length_drop]
      have htail : ∀ i ∈ List.range ((l.length - 64) / 64),
          List.take 64 (List.drop (64 * i) (List.drop 64 l)) =
          ((fun j => List.take 64 (List.drop (64 * j) l)) ∘ Nat.succ) i := by
        intro i hi
        simp only [Function.comp_apply, List.drop_drop]
        have he : 64 + 64 * i = 64 * Nat.succ i := by omega
        rw [he]
      rw [List.map_congr_left htail]
      simp
    · simp only [chunksGo, if_neg h64]
      have hz : l.length / 64 = 0 := Nat.div_eq_of_lt (by omega)
      simp [hz]

/-- A string that starts with a prefix is at least as long as the prefix. -/
theorem strStarts_length {s pre : Str} (h : strStarts s pre = true) :
    pre.length ≤ s.length := by
  unfold strStarts at h
  have he : s.take pre.length = pre := of_decide_eq_true h
  have hlen := congrArg List.length he
  simp [List.length_take] at hlen
  omega

/-- An included transaction's call data never hits the out-of-bounds slice of
`parse_256_method_arguments`: its input carries the 10-character selector
prefix. -/
theorem include_no_crash {lc : Str} {tx : Tx} (h : includeTx lc tx = true) :
    parse_256_method_arguments tx.input ≠ .crash := by
  unfold includeTx at h
  simp only [Bool.and_eq_true] at h
  have hs : strStarts tx.input SEL = true := h.2
  have hSEL : SEL.length = 10 := by decide
  have hlen : (10 : Nat) ≤ tx.input.length := by
    have := strStarts_length hs
    omega
  have h1 : ¬ tx.input.length = 0 := by omega
  have h2 : ¬ tx.input.length < 10 := by omega
  intro hcrash
  simp [parse_256_method_arguments, h1, h2] at hcrash
  split at hcrash <;> simp_all

/-- One extraction-loop step either produces an updated map or exits with
code 1. -/
theorem stepTx_cases (lc : Str) (m : RelMap) (tx : Tx) :
    (∃ m2, stepTx lc m tx = .ok m2) ∨ stepTx lc m tx = .exited 1 := by
  by_cases hi : includeTx lc tx = true
  · cases hp : parse_256_method_arguments tx.input with
    | crash => exact absurd hp (include_no_crash hi)
    | err msg =>
      right
      simp [stepTx, hi, hp]
    | ok ws =>
      by_cases hl : ws.length < 2
      · right
        simp [stepTx, hi, hp, hl]
      · left
        exact ⟨relAddSpender (relEnsureKey m tx.to_addr) tx.to_addr
          (spenderFromArg (ws.headD [])), by simp [stepTx, hi, hp, hl]⟩
  · left
    exact ⟨m, by simp [stepTx, hi]⟩

/-- An included transaction with undecodable or too-short call data makes the
extraction step exit with code 1. -/
theorem stepTx_offender (lc : Str) (m : RelMap) (tx : Tx)
    (hi : includeTx lc tx = true) (hb : decodeFatal tx = true) :
    stepTx lc m tx = .exited 1 := by
  cases hp : parse_256_method_arguments tx.input with
  | crash => exact absurd hp (include_no_crash hi)
  | err msg => simp [stepTx, hi, hp]
  | ok ws =>
    unfold decodeFatal at hb
    rw [hp] at hb
    have hl : ws.length < 2 := of_decide_eq_true hb
    simp [stepTx, hi, hp, hl]

/-- The extraction loop exits with code 1 whenever the history contains an
included transaction with undecodable or too-short call data. -/
theorem extractLoop_offender (lc : Str) (txs : List Tx) :
    ∀ m tx, tx ∈ txs → includeTx lc tx = true → decodeFatal tx = true →
      extractLoop lc txs m = .exited 1 := by
  induction txs with
  | nil =>
    intro m tx h
    exact absurd h (List.not_mem_nil tx)
  | cons t rest ih =>
    intro m tx hmem hi hb
    rcases List.mem_cons.mp hmem with heq | hmem2
    · subst heq
      simp [extractLoop, stepTx_offender lc m tx hi hb]
    · rcases stepTx_cases lc m t with ⟨m2, hok⟩ | hex
      · simp only [extractLoop, hok]
        exact ih m2 tx hmem2 hi hb
      · simp [extractLoop, hex]

/-- Lower-casing maps a code point to the zero digit only from itself. -/
theorem lc_eq_48 (c : Nat) : (charToLowerA c = 48) ↔ c = 48 := by
  unfold charToLowerA
  split <;> omega

/-- Lower-casing maps a code point to `x` exactly from `x` or `X`. -/
theorem lc_eq_120 (c : Nat) : (charToLowerA c = 120) ↔ (c = 120 ∨ c = 88) := by
  unfold charToLowerA
  split <;> omega

/-- A code point lower-cases to a hex digit iff it is a hex digit of either
case. -/
theorem lc_hex (c : Nat) : isLcHexDigit (charToLowerA c) = isHexDigitAnyCase c := by
  unfold charToLowerA isLcHexDigit isHexDigitAnyCase
  split <;> (rw [decide_eq_decide]; omega)

/-- Pointwise version of `lc_hex` over a whole string. -/
theorem all_lc_hex (l : Str) :
    (l.map charToLowerA).all isLcHexDigit = l.all isHexDigitAnyCase := by
  induction l with
  | nil => rfl
  | cons c t ih => simp [List.all_cons, lc_hex, ih]

/-- The lower-cased first two characters are `0x` iff the original ones are
`0x` or `0X`. -/
theorem map_lc_take2 (l : Str) :
    ((l.take 2).map charToLowerA = [48, 120]) ↔
      (l.take 2 = [48, 120] ∨ l.take 2 = [48, 88]) := by
  cases l with
  | nil => simp
  | cons a t =>
    cases t with
    | nil => simp
    | cons b t2 =>
      simp only [List.take_succ_cons, List.take_zero, List.map_cons, List.map_nil,
        List.cons.injEq, and_true]
      rw [lc_eq_48, lc_eq_120]
      tauto

/-- The source validator agrees everywhere with the spec-side reading of
`validate_format`. -/
theorem validate_eq_spec (a : Str) :
    validate_address_format a = specValidFormat a := by
  unfold validate_address_format matchesAddrRegex specValidFormat isHex40 toLowerStr
  rw [← List.map_take, ← List.map_drop]
  rw [decide_eq_decide.mpr (map_lc_take2 a), Bool.decide_or]
  rw [all_lc_hex, all_lc_hex]
  simp [List.length_map, Bool.and_assoc]

/-- Any-case hex digits have a hex value. -/
theorem hexVal_isSome {c : Nat} (h : isHexDigitAnyCase c = true) :
    (hexVal c).isSome = true := by
  have hp := of_decide_eq_true h
  unfold hexVal
  rcases hp with h1 | h2 | h3
  · rw [if_pos h1]
    rfl
  · rw [if_neg (by omega), if_pos h2]
    rfl
  · rw [if_neg (by omega), if_neg (by omega), if_pos h3]
    rfl

/-- Hex decoding succeeds on an even-length string of any-case hex digits and
yields half as many bytes. -/
theorem hexDecode_ok : ∀ (n : Nat) (l : Str), l.length = 2 * n →
    (∀ c ∈ l, isHexDigitAnyCase c = true) →
    ∃ bs, hexDecode l = some bs ∧ bs.length = n := by
  intro n
  induction n with
  | zero =>
    intro l h _
    have hl : l = [] := List.eq_nil_of_length_eq_zero (by omega)
    subst hl
    exact ⟨[], rfl, rfl⟩
  | succ k ih =>
    intro l hlen hall
    cases l with
    | nil => simp at hlen
    | cons c1 t =>
      cases t with
      | nil => simp at hlen; omega
      | cons c2 rest =>
        have hv1 := hexVal_isSome (hall c1 (by simp))
        have hv2 := hexVal_isSome (hall c2 (by simp))
        obtain ⟨v1, hv1e⟩ := Option.isSome_iff_exists.mp hv1
        obtain ⟨v2, hv2e⟩ := Option.isSome_iff_exists.mp hv2
        obtain ⟨bs, hbs, hbslen⟩ := ih rest (by simp at hlen; omega)
          (fun c hc => hall c (by simp [hc]))
        refine ⟨(16 * v1 + v2) :: bs, ?_, by simp [hbslen]⟩
        simp [hexDecode, hv1e, hv2e, hbs]

/-- A validated address is either a bare 40-hex-digit string or a
42-character `0x`-prefixed one whose tail is any-case hex. -/
theorem validate_cases {a : Str} (h : validate_address_format a = true) :
    ((a.take 2 = [48, 120] ∨ a.take 2 = [48, 88]) ∧ a.length = 42 ∧
      (∀ c ∈ a.drop 2, isHexDigitAnyCase c = true)) ∨
    (a.length = 40 ∧ ∀ c ∈ a, isHexDigitAnyCase c = true) := by
  rw [validate_eq_spec] at h
  unfold specValidFormat at h
  simp only [Bool.or_eq_true, Bool.and_eq_true, decide_eq_true_eq, beq_iff_eq,
    List.all_eq_true] at h
  rcases h with ⟨⟨hpre, hlen⟩, hall⟩ | ⟨hlen, hall⟩
  · left
    refine ⟨hpre, ?_, hall⟩
    have ht : (a.take 2).length = 2 := by
      rcases hpre with h1 | h1 <;> simp [h1]
    simp [List.length_take] at ht
    simp [List.length_drop] at hlen
    omega
  · right
    exact ⟨hlen, hall⟩

/-- Closed form of the chunk-collecting while loop: from running count `r` it
collects the next `C - r` elements (or to the end of the list) and reports
the updated running count. -/
theorem innerWhileGo_spec {α : Type} (v : List α) (C iC : Nat) :
    ∀ (fuel running : Nat), C ≤ running + fuel →
      innerWhileGo v C iC fuel running =
        ((v.drop (iC + running)).take (C - running),
         running + min (C - running) (v.length - (iC + running))) := by
  intro fuel
  induction fuel with
  | zero =>
    intro running h
    have h0 : C - running = 0 := by omega
    simp [innerWhileGo, h0]
  | succ n ih =>
    intro running h
    by_cases hr : running < C
    · by_cases hidx : iC + running < v.length
      · simp only [innerWhileGo, if_pos hr, dif_pos hidx]
        rw [ih (running + 1) (by omega)]
        simp only [Prod.mk.injEq]
        constructor
        · rw [List.drop_eq_getElem_cons hidx]
          have hc : C - running = (C - (running + 1)) + 1 := by omega
          rw [hc, List.take_succ_cons]
          have ha : iC + (running + 1) = iC + running + 1 := by omega
          rw [ha]
          rfl
        · omega
      · simp only [innerWhileGo, if_pos hr, dif_neg hidx]
        have hd : v.drop (iC + running) = [] := List.drop_eq_nil_of_le (by omega)
        have hm : v.length - (iC + running) = 0 := by omega
        simp [hd, hm]
    · have h0 : C - running = 0 := by omega
      simp [innerWhileGo, if_neg hr, h0]

/-- The inner while loop started at running count 0 collects exactly the
`C`-element slice of the list beginning at index `iC`. -/
theorem innerWhile_zero {α : Type} (v : List α) (C iC : Nat) :
    innerWhile v C iC 0 = ((v.drop iC).take C, min C (v.length - iC)) := by
  unfold innerWhile
  rw [innerWhileGo_spec v C iC (C - 0) 0 (by omega)]
  simp

/-- A chunk index whose chunk start lies inside the list is below the chunk
count. -/
theorem lt_numOutputs {C : Nat} (hC : 0 < C) {n i : Nat} (h : i * C < n) :
    i < numOutputsArray n C := by
  unfold numOutputsArray
  have h1 : (i + 1) * C ≤ n + C - 1 := by
    rw [Nat.succ_mul]
    omega
  have h2 := (Nat.le_div_iff_mul_le hC).mpr h1
  omega

/-- The outer batching loop started at chunk `i` processes exactly the
remaining `numOutputsArray - i` chunks, whose concatenation is the remaining
part of the list. -/
theorem outerForGo_spec {α : Type} (v : List α) (C : Nat) (hC : 0 < C) :
    ∀ (fuel i : Nat),
      numOutputsArray v.length C ≤ i + fuel →
      i * C < v.length →
      concatAll (outerForGo v C (numOutputsArray v.length C) fuel i 0) =
          v.drop (i * C) ∧
      (outerForGo v C (numOutputsArray v.length C) fuel i 0).length =
          numOutputsArray v.length C - i := by
  intro fuel
  induction fuel with
  | zero =>
    intro i hfuel hlen
    exact absurd (lt_numOutputs hC hlen) (by omega)
  | succ n ih =>
    intro i hfuel hlen
    have hi : i < numOutputsArray v.length C := lt_numOutputs hC hlen
    simp only [outerForGo, if_pos hi, innerWhile_zero]
    by_cases hbreak : v.length ≤ i * C + min C (v.length - i * C)
    · rw [if_pos hbreak]
      have hle : v.length - i * C ≤ C := by omega
      have hnum : numOutputsArray v.length C = i + 1 := by
        unfold numOutputsArray
        apply Nat.div_eq_of_lt_le
        · rw [Nat.succ_mul]
          omega
        · rw [show (i + 1 + 1) * C = i * C + C + C from by ring]
          omega
      constructor
      · simp only [concatAll, List.append_nil]
        apply List.take_of_length_le
        simp [List.length_drop]
        omega
      · simp [hnum]
    · rw [if_neg hbreak]
      have hcc : i * C + C < v.length := by omega
      have hnext : (i + 1) * C < v.length := by
        rw [Nat.succ_mul]
        omega
      obtain ⟨ih1, ih2⟩ := ih (i + 1) (by omega) hnext
      constructor
      · simp only [concatAll, ih1]
        rw [Nat.succ_mul, ← List.drop_drop, List.take_append_drop]
      · simp only [List.length_cons, ih2]
        omega

/-- The batching loop cuts the list into exactly `ceil(length / C)` chunks
whose concatenation is the original list. -/
theorem buildChunks_spec {α : Type} (v : List α) (C : Nat) (hC : 0 < C) :
    concatAll (buildChunks v C) = v ∧
    (buildChunks v C).length = numOutputsArray v.length C := by
  by_cases hv : v.length = 0
  · have hnil : v = [] := List.eq_nil_of_length_eq_zero hv
    subst hnil
    have h0 : numOutputsArray 0 C = 0 := Nat.div_eq_of_lt (by omega)
    simp [buildChunks, h0, outerForGo, concatAll]
  · obtain ⟨h1, h2⟩ := outerForGo_spec v C hC (numOutputsArray v.length C) 0
      (by omega) (by simpa using Nat.pos_of_ne_zero hv)
    unfold buildChunks
    exact ⟨by simpa using h1, by simpa using h2⟩

/-- Concatenation commutes with mapping over every chunk. -/
theorem concatAll_map {α β : Type} (q : α → β) : ∀ L : List (List α),
    concatAll (L.map (List.map q)) = (concatAll L).map q := by
  intro L
  induction L with
  | nil => rfl
  | cons c cs ih => simp [concatAll, ih]

/-- If some spender's allowance read fails, the spender loop degrades the
contract's report to an error carrying the contract address. -/
theorem queryGo_err (o : ContractOracle) (ca oa : Str) :
    ∀ (sp : List Str) (acc : TokenContractWithSpenderAllowances),
      (∃ s ∈ sp, (o.allowance_res s).isErr = true) →
      (queryGo o ca oa acc sp).1.errAddr = some ca := by
  intro sp
  induction sp with
  | nil =>
    intro acc h
    simp at h
  | cons s rest ih =>
    intro acc h
    cases hres : o.allowance_res s with
    | err e => simp [queryGo, hres, QueryOut.errAddr]
    | ok raw =>
      obtain ⟨t, ht, hterr⟩ := h
      rcases List.mem_cons.mp ht with rfl | htr
      · rw [hres] at hterr
        simp [RRes.isErr] at hterr
      · simp only [queryGo, hres]
        exact ih _ ⟨t, htr, hterr⟩

/-- Any single remote-read failure during `query` produces an error report
entry carrying the contract address. -/
theorem query_err (o : ContractOracle) (ca oa : Str) (sp : List Str)
    (h : o.create_res.isErr = true ∨ o.name_res.isErr = true ∨
      o.decimals_res.isErr = true ∨
      ∃ s ∈ sp, (o.allowance_res s).isErr = true) :
    (query o ca oa sp).1.errAddr = some ca := by
  cases hc : o.create_res with
  | err e => simp [query, hc, QueryOut.errAddr]
  | ok u =>
    cases hn : o.name_res with
    | err e => simp [query, hc, hn, QueryOut.errAddr]
    | ok nm =>
      cases hd : o.decimals_res with
      | err e => simp [query, hc, hn, hd, QueryOut.errAddr]
      | ok decs =>
        rcases h with h | h | h | h
        · rw [hc] at h
          simp [RRes.isErr] at h
        · rw [hn] at h
          simp [RRes.isErr] at h
        · rw [hd] at h
          simp [RRes.isErr] at h
        · simp only [query, hc, hn, hd]
          exact queryGo_err o ca oa sp _ h

/-- A metadata failure makes `query` stop before issuing any allowance
read. -/
theorem query_meta_no_allowance (o : ContractOracle) (ca oa : Str)
    (sp : List Str)
    (h : o.name_res.isErr = true ∨ o.decimals_res.isErr = true) :
    ∀ s, RpcCall.allowanceCall s ∉ (query o ca oa sp).2 := by
  intro s
  cases hc : o.create_res with
  | err e => simp [query, hc]
  | ok u =>
    cases hn : o.name_res with
    | err e => simp [query, hc, hn]
    | ok nm =>
      cases hd : o.decimals_res with
      | err e => simp [query, hc, hn, hd]
      | ok decs =>
        rcases h with h | h
        · rw [hn] at h
          simp [RRes.isErr] at h
        · rw [hd] at h
          simp [RRes.isErr] at h

/-- Chunked batch processing produces exactly the per-contract query results
of the relationship list, in order. -/
theorem runBatches_eq (o : Str → ContractOracle) (owner : Str) (rel : RelMap) :
    runBatches o owner rel =
      rel.map (fun p => (query (o p.1) p.1 owner p.2).1) := by
  unfold runBatches
  rw [concatAll_map, (buildChunks_spec rel RPC_RATE_LIMIT (by decide)).1]

/-- Claim C1, amended.  `parse_256_method_arguments` returns `Ok []` for
empty call data; panics for inputs of length 1 to 9; fails with the
malformed-call-data error exactly when the remainder after the 10-character
prefix is shorter than one full 64-character word (in particular for
selector-only call data); and otherwise returns, in order, exactly the
consecutive full 64-character words of the remainder, silently dropping any
trailing partial word, so a remainder that is not a multiple of 64 is not an
error. -/
theorem C1_parse_arguments (s : Str) :
    (s.length = 0 → parse_256_method_arguments s = .ok []) ∧
    (0 < s.length → s.length < 10 → parse_256_method_arguments s = .crash) ∧
    (10 ≤ s.length → s.length < 74 →
      parse_256_method_arguments s = .err errMsgNotLongEnough) ∧
    (74 ≤ s.length →
      parse_256_method_arguments s =
        .ok ((List.range ((s.length - 10) / 64)).map
          (fun i => ((s.drop 10).drop (64 * i)).take 64))) := by
  refine ⟨?_, ?_, ?_, ?_⟩
  · intro h
    simp [parse_256_method_arguments, h]
  · intro h0 h10
    have h1 : ¬ s.length = 0 := by omega
    simp [parse_256_method_arguments, h1, h10]
  · intro ha hb
    have h1 : ¬ s.length = 0 := by omega
    have h2 : ¬ s.length < 10 := by omega
    have h3 : s.length - 10 < 64 := by omega
    simp [parse_256_method_arguments, h1, h2, h3, List.length_drop]
  · intro ha
    have h1 : ¬ s.length = 0 := by omega
    have h2 : ¬ s.length < 10 := by omega
    have h3 : ¬ (s.drop 10).length < 64 := by
      simp [List.length_drop]
      omega
    simp only [parse_256_method_arguments, if_neg h1, if_neg h2, if_neg h3]
    rw [chunks64, chunksGo_spec _ _ (le_refl _)]
    simp [List.length_drop]

/-- Witness for claim C1: on the selector followed by exactly two
64-character words the parser returns those two words in order. -/
theorem C1_parse_arguments_witness :
    parse_256_method_arguments (SEL ++ wordDs ++ wordZeros) =
      .ok [wordDs, wordZeros] := by
  have h := (C1_parse_arguments (SEL ++ wordDs ++ wordZeros)).2.2.2 (by decide)
  rw [h]
  decide

/-- Counterexample to claim C1 as stated: empty call data yields `Ok` with no
words rather than a `MalformedCallData` failure, and a remainder of 66
characters (not a positive multiple of 64) yields `Ok` with one word rather
than a failure. -/
theorem C1_counterexample :
    parse_256_method_arguments [] = .ok [] ∧
    parse_256_method_arguments (SEL ++ wordDs ++ strLit "ff") = .ok [wordDs] := by
  constructor
  · decide
  · decide

/-- Claim C2, amended.  Extraction is case-insensitive in the owner argument
only: the owner address is lower-cased before use, so owner inputs that
agree up to letter case produce identical extraction results on every
history.  (`tx.to` and the spender word are used as map keys without
normalization; the counterexample shows case variants there yield distinct
entries.) -/
theorem C2_owner_case_insensitive (o1 o2 : Str) (txs : List Tx)
    (h : toLowerStr o1 = toLowerStr o2) :
    extract o1 txs = extract o2 txs := by
  unfold extract
  rw [h]

/-- Witness for claim C2: an upper-case owner input gives the same result as
the lower-case one. -/
theorem C2_owner_case_insensitive_witness :
    extract ownerAsUc [txGood] = extract ownerAs [txGood] :=
  C2_owner_case_insensitive ownerAsUc ownerAs [txGood] (by decide)

/-- Counterexample to claim C2 as stated: two histories that differ only in
the letter case of the recipient address produce different relationship
maps, and a history containing both case variants produces two distinct
contract entries for the same underlying address. -/
theorem C2_counterexample :
    extract ownerAs [txGood] ≠ extract ownerAs [txGoodUc] ∧
    extract ownerAs [txGood, txGoodUc] = .ok [(ctLc, [spDs]), (ctUc, [spDs])] := by
  constructor
  · decide
  · decide

/-- Claim C3.  For every contract list and positive chunk size the batching
loop issues exactly `ceil(N / C)` sequential chunks; their concatenation is
exactly the original list (every contract exactly once, in order); and the
concatenation of the per-chunk query results equals querying the whole list
unchunked. -/
theorem C3_chunk_partition {α β : Type} (v : List α) (q : α → β) (C : Nat)
    (hC : 0 < C) :
    (buildChunks v C).length = numOutputsArray v.length C ∧
    concatAll (buildChunks v C) = v ∧
    concatAll ((buildChunks v C).map (List.map q)) = v.map q := by
  obtain ⟨h1, h2⟩ := buildChunks_spec v C hC
  exact ⟨h2, h1, by rw [concatAll_map, h1]⟩

/-- Witness for claim C3: five contracts with chunk size 2 give three chunks
covering the list exactly once, and the chunked map equals the unchunked
map. -/
theorem C3_chunk_partition_witness :
    (buildChunks [10, 20, 30, 40, 50] 2).length = numOutputsArray 5 2 ∧
    concatAll (buildChunks [10, 20, 30, 40, 50] 2) = [10, 20, 30, 40, 50] ∧
    concatAll ((buildChunks [10, 20, 30, 40, 50] 2).map
      (List.map (fun n => n + 1))) = [10, 20, 30, 40, 50].map (fun n => n + 1) :=
  C3_chunk_partition [10, 20, 30, 40, 50] (fun n => n + 1) 2 (by decide)

/-- Claim C4.  Any single remote-read failure (contract creation, the name
read, the decimals read, or any one spender's allowance read) makes that
contract's report an error entry carrying the contract address; a metadata
failure causes no allowance read to be issued for that contract; the chunked
batch output is exactly the list of independent per-contract query results,
so sibling contracts are unaffected; and a run whose extraction succeeded
ends in the normal (non-exit) outcome regardless of query failures. -/
theorem C4_failure_isolation (o : Str → ContractOracle) (owner : Str)
    (rel : RelMap) (txs : List Tx) :
    (∀ ct sp, ((o ct).create_res.isErr = true ∨ (o ct).name_res.isErr = true ∨
        (o ct).decimals_res.isErr = true ∨
        ∃ s ∈ sp, ((o ct).allowance_res s).isErr = true) →
      (query (o ct) ct owner sp).1.errAddr = some ct) ∧
    (∀ ct sp, ((o ct).name_res.isErr = true ∨ (o ct).decimals_res.isErr = true) →
      ∀ s, RpcCall.allowanceCall s ∉ (query (o ct) ct owner sp).2) ∧
    runBatches o owner rel = rel.map (fun p => (query (o p.1) p.1 owner p.2).1) ∧
    (extractLoop (toLowerStr owner) txs [] = .ok rel →
      mainModel (.ok txs) o owner = .ok (runBatches o (toLowerStr owner) rel)) := by
  refine ⟨?_, ?_, runBatches_eq o owner rel, ?_⟩
  · intro ct sp h
    exact query_err (o ct) ct owner sp h
  · intro ct sp h
    exact query_meta_no_allowance (o ct) ct owner sp h
  · intro h
    simp [mainModel, h]

/-- Witness for claim C4: with a failing name read, the report entry is an
error carrying the contract address and no allowance read is issued. -/
theorem C4_failure_isolation_witness :
    (query oracleNameErr ctLc ownerAs [spDs]).1.errAddr = some ctLc ∧
    RpcCall.allowanceCall spDs ∉ (query oracleNameErr ctLc ownerAs [spDs]).2 := by
  have h := C4_failure_isolation (fun _ => oracleNameErr) ownerAs [] []
  exact ⟨h.1 ctLc [spDs] (Or.inr (Or.inl rfl)),
    h.2.1 ctLc [spDs] (Or.inl rfl) spDs⟩

/-- Claim C5.  A transaction whose inclusion test fails (sender differing
from the lower-cased owner, error flag set, or a non-approve selector)
leaves the relationship map unchanged; a transaction passing the test, whose
call data decodes to at least two words, adds exactly the pair of its
recipient and the spender extracted from argument word 0. -/
theorem C5_inclusion_predicate (owner : Str) (tx : Tx) (m : RelMap) :
    ((decide (tx.from_addr = toLowerStr owner) && !tx.is_error &&
        strStarts tx.input SEL) = false →
      stepTx (toLowerStr owner) m tx = .ok m) ∧
    (∀ ws, parse_256_method_arguments tx.input = .ok ws → 2 ≤ ws.length →
      (decide (tx.from_addr = toLowerStr owner) && !tx.is_error &&
        strStarts tx.input SEL) = true →
      stepTx (toLowerStr owner) m tx =
        .ok (relAddSpender (relEnsureKey m tx.to_addr) tx.to_addr
          (spenderFromArg (ws.headD [])))) := by
  constructor
  · intro h
    simp [stepTx, includeTx, h]
  · intro ws hp hl h
    have hnl : ¬ ws.length < 2 := by omega
    simp [stepTx, includeTx, h, hp, hnl]

/-- Witness for claim C5: a transaction with the error flag set contributes
nothing, while the matching approve transaction contributes exactly its
(contract, spender) pair. -/
theorem C5_inclusion_predicate_witness :
    stepTx (toLowerStr ownerAs) [] txErrFlag = .ok [] ∧
    stepTx (toLowerStr ownerAs) [] txGood = .ok [(ctLc, [spDs])] := by
  constructor
  · exact (C5_inclusion_predicate ownerAs txErrFlag []).1 (by decide)
  · have h := (C5_inclusion_predicate ownerAs txGood []).2 [wordDs, wordZeros]
      (by decide) (by decide) (by decide)
    rw [h]
    decide

/-- Claim C6.  If the history contains an included approve transaction whose
call data fails to decode or decodes to fewer than two words, the whole run
aborts with exit code 1 (non-zero), and the model of `main` terminates with
that exit code instead of producing any report. -/
theorem C6_fatal_malformed (owner : Str) (txs : List Tx)
    (o : Str → ContractOracle) (tx : Tx)
    (hmem : tx ∈ txs) (hinc : includeTx (toLowerStr owner) tx = true)
    (hbad : decodeFatal tx = true) :
    extract owner txs = .exited 1 ∧
    mainModel (.ok txs) o owner = .exited 1 := by
  have h := extractLoop_offender (toLowerStr owner) txs [] tx hmem hinc hbad
  exact ⟨h, by simp [mainModel, h]⟩

/-- Witness for claim C6: a history with one well-formed approve and one
one-word approve aborts the whole run with exit code 1. -/
theorem C6_fatal_malformed_witness :
    extract ownerAs [txGood, txShort] = .exited 1 ∧
    mainModel (.ok [txGood, txShort]) oracleConstOk ownerAs = .exited 1 :=
  C6_fatal_malformed ownerAs [txGood, txShort] oracleConstOk txShort
    (by decide) (by decide) (by decide)

/-- Claim C7.  Spender extraction takes the low-order 40 characters
(characters 25 to 64) of a 64-character argument word and prefixes `0x`; and
it round-trips: ABI-encoding a `0x`-prefixed 40-digit address as a
left-zero-padded 32-byte word and extracting the spender from that word
yields the original address. -/
theorem C7_spender_roundtrip (digits w : Str) (_h40 : digits.length = 40)
    (hw : w.length = 64) :
    spenderFromArg w = strLit "0x" ++ w.drop 24 ∧
    (w.drop 24).length = 40 ∧
    spenderFromArg (abi_encode_address_word (strLit "0x" ++ digits)) =
      strLit "0x" ++ digits := by
  refine ⟨rfl, ?_, ?_⟩
  · simp [List.length_drop, hw]
  · unfold abi_encode_address_word spenderFromArg
    have hs : (strLit "0x" ++ digits).drop 2 = digits := by
      have h2 : strLit "0x" = [48, 120] := by decide
      rw [h2]
      rfl
    rw [hs]
    have hd := List.drop_left (List.replicate 24 48 : Str) digits
    simp only [List.length_replicate] at hd
    rw [hd]

/-- Witness for claim C7: the concrete spender address round-trips through
ABI encoding and extraction. -/
theorem C7_spender_roundtrip_witness :
    spenderFromArg (abi_encode_address_word spDs) = spDs :=
  (C7_spender_roundtrip (List.replicate 40 100) wordZeros (by decide)
    (by decide)).2.2

/-- Evaluation of the parser when the remainder is shorter than one word. -/
theorem parse_eval_lt74 {s : Str} (h10 : 10 ≤ s.length) (h : s.length < 74) :
    parse_256_method_arguments s = .err errMsgNotLongEnough := by
  have h1 : ¬ s.length = 0 := by omega
  have h2 : ¬ s.length < 10 := by omega
  have h3 : s.length - 10 < 64 := by omega
  simp [parse_256_method_arguments, h1, h2, h3, List.length_drop]

/-- On an input long enough for at least one word, the parser succeeds, its
word count depends only on the input length, and its first word is
determined by the first 74 characters. -/
theorem parse_ge74_obs {s : Str} (h : 74 ≤ s.length) :
    ∃ ws, parse_256_method_arguments s = .ok ws ∧
      ws.length = (s.length - 10) / 64 ∧ ws.headD [] = (s.take 74).drop 10 := by
  have h1 : ¬ s.length = 0 := by omega
  have h2 : ¬ s.length < 10 := by omega
  have h3 : ¬ (s.drop 10).length < 64 := by
    simp [List.length_drop]
    omega
  refine ⟨chunks64 (s.drop 10), ?_, ?_, ?_⟩
  · simp only [parse_256_method_arguments, if_neg h1, if_neg h2, if_neg h3]
  · rw [chunks64, chunksGo_spec _ _ (le_refl _)]
    simp [List.length_drop]
  · rw [chunks64, chunksGo_spec _ _ (le_refl _)]
    have hlen : (s.drop 10).length = s.length - 10 := by simp [List.length_drop]
    rw [hlen]
    have hone : 1 ≤ (s.length - 10) / 64 :=
      (Nat.le_div_iff_mul_le (by norm_num)).mpr (by omega)
    have hk : (s.length - 10) / 64 = ((s.length - 10) / 64 - 1) + 1 := by omega
    rw [hk, List.range_succ_eq_map]
    simp [List.drop_take]

/-- A non-included transaction leaves the map untouched. -/
theorem stepTx_not_included {lc : Str} {tx : Tx} (m : RelMap)
    (hi : includeTx lc tx = false) : stepTx lc m tx = .ok m := by
  simp [stepTx, hi]

/-- An included transaction with well-formed call data inserts exactly its
(recipient, spender) pair. -/
theorem stepTx_eq_of_wf {lc : Str} {tx : Tx} {ws : List Str} (m : RelMap)
    (hi : includeTx lc tx = true)
    (hp : parse_256_method_arguments tx.input = .ok ws) (hl : 2 ≤ ws.length) :
    stepTx lc m tx = .ok (relAddSpender (relEnsureKey m tx.to_addr) tx.to_addr
      (spenderFromArg (ws.headD []))) := by
  have hnl : ¬ ws.length < 2 := by omega
  simp [stepTx, hi, hp, hnl]

/-- Inversion for a successful extraction step: the map is unchanged, or the
transaction was included with well-formed call data and its pair was
inserted. -/
theorem stepTx_ok_inv {lc : Str} {m : RelMap} {tx : Tx} {m2 : RelMap}
    (hs : stepTx lc m tx = .ok m2) :
    m2 = m ∨ ∃ ws, includeTx lc tx = true ∧
      parse_256_method_arguments tx.input = .ok ws ∧ 2 ≤ ws.length ∧
      m2 = relAddSpender (relEnsureKey m tx.to_addr) tx.to_addr
        (spenderFromArg (ws.headD [])) := by
  by_cases hi : includeTx lc tx = true
  · cases hp : parse_256_method_arguments tx.input with
    | crash => exact absurd hp (include_no_crash hi)
    | err e => simp [stepTx, hi, hp] at hs
    | ok ws =>
      by_cases hl : ws.length < 2
      · simp [stepTx, hi, hp, hl] at hs
      · right
        refine ⟨ws, hi, rfl, by omega, ?_⟩
        have he := stepTx_eq_of_wf m hi hp (by omega)
        rw [he] at hs
        injection hs with h2
        exact h2.symm
  · left
    have hif : includeTx lc tx = false := by
      simp only [Bool.not_eq_true] at hi
      exact hi
    rw [stepTx_not_included m hif] at hs
    injection hs with h2
    exact h2.symm

/-- A key absent from a map according to `relContains` is not among its
entries' keys. -/
theorem relContains_false_not_mem {m : RelMap} {k : Str}
    (h : relContains m k = false) : k ∉ m.map Prod.fst := by
  intro hmem
  obtain ⟨p, hp, hpk⟩ := List.mem_map.mp hmem
  have htrue : m.any (fun p => decide (p.1 = k)) = true :=
    List.any_eq_true.mpr ⟨p, hp, by simp [hpk]⟩
  unfold relContains at h
  rw [h] at htrue
  cases htrue

/-- Ensuring a key preserves distinctness of the contract keys. -/
theorem relEnsureKey_keys_nodup {m : RelMap} {k : Str}
    (h : (m.map Prod.fst).Nodup) : ((relEnsureKey m k).map Prod.fst).Nodup := by
  unfold relEnsureKey
  split
  · exact h
  · rename_i hc
    have hcf : relContains m k = false := by
      simp only [Bool.not_eq_true] at hc
      exact hc
    have hnot := relContains_false_not_mem hcf
    simp only [List.map_append, List.map_cons, List.map_nil]
    rw [List.nodup_append]
    refine ⟨h, List.nodup_singleton k, ?_⟩
    intro a ha hb
    simp at hb
    subst hb
    exact hnot ha

/-- Ensuring a key preserves distinctness of every spender list. -/
theorem relEnsureKey_snd_nodup {m : RelMap} {k : Str}
    (h : ∀ p ∈ m, p.2.Nodup) : ∀ p ∈ relEnsureKey m k, p.2.Nodup := by
  unfold relEnsureKey
  split
  · exact h
  · intro p hp
    rcases List.mem_append.mp hp with hin | hin
    · exact h p hin
    · simp at hin
      simp [hin]

/-- Adding a spender never changes the contract keys. -/
theorem relAddSpender_keys (m : RelMap) (k s : Str) :
    (relAddSpender m k s).map Prod.fst = m.map Prod.fst := by
  unfold relAddSpender
  rw [List.map_map]
  apply List.map_congr_left
  intro p hp
  simp only [Function.comp_apply]
  split <;> rfl

/-- Adding a spender preserves distinctness of every spender list. -/
theorem relAddSpender_snd_nodup {m : RelMap} {k s : Str}
    (h : ∀ p ∈ m, p.2.Nodup) : ∀ p ∈ relAddSpender m k s, p.2.Nodup := by
  unfold relAddSpender
  intro p hp
  obtain ⟨q, hq, hpq⟩ := List.mem_map.mp hp
  subst hpq
  split
  · show (if q.2.any (fun y => decide (y = s)) then q.2 else q.2 ++ [s]).Nodup
    split
    · exact h q hq
    · rename_i hany
      have hns : s ∉ q.2 := by
        intro hmem
        exact hany (List.any_eq_true.mpr ⟨s, hmem, by simp⟩)
      rw [List.nodup_append]
      refine ⟨h q hq, List.nodup_singleton s, ?_⟩
      intro a ha hb
      simp at hb
      subst hb
      exact hns ha
  · exact h q hq

/-- After ensuring a key, the map contains it. -/
theorem relContains_ensure (m : RelMap) (k : Str) :
    relContains (relEnsureKey m k) k = true := by
  unfold relEnsureKey
  split
  · rename_i hc
    exact hc
  · unfold relContains
    rw [List.any_append]
    simp

/-- Ensuring a key preserves every pair already in the map. -/
theorem relHasPair_ensure {m : RelMap} {c s : Str} (k : Str)
    (h : relHasPair m c s = true) : relHasPair (relEnsureKey m k) c s = true := by
  unfold relEnsureKey
  split
  · exact h
  · unfold relHasPair at h ⊢
    rw [List.any_append, h, Bool.true_or]

/-- Adding a spender preserves every pair already in the map. -/
theorem relHasPair_add {m : RelMap} {c s : Str} (k s0 : Str)
    (h : relHasPair m c s = true) : relHasPair (relAddSpender m k s0) c s = true := by
  unfold relHasPair at h ⊢
  unfold relAddSpender
  obtain ⟨p, hp, hpred⟩ := List.any_eq_true.mp h
  simp only [Bool.and_eq_true] at hpred
  apply List.any_eq_true.mpr
  refine ⟨_, List.mem_map.mpr ⟨p, hp, rfl⟩, ?_⟩
  split
  · simp only [Bool.and_eq_true]
    refine ⟨hpred.1, ?_⟩
    split
    · exact hpred.2
    · rw [List.any_append, hpred.2, Bool.true_or]
  · simp only [Bool.and_eq_true]
    exact hpred

/-- Adding a spender under a key the map contains makes the pair present. -/
theorem relHasPair_insert {c s : Str} : ∀ m : RelMap, relContains m c = true →
    relHasPair (relAddSpender m c s) c s = true := by
  intro m
  induction m with
  | nil =>
    intro h
    simp [relContains] at h
  | cons p rest ih =>
    intro h
    unfold relAddSpender relHasPair
    simp only [List.map_cons, List.any_cons]
    by_cases hpc : p.1 = c
    · apply Bool.or_eq_true_iff.mpr
      left
      rw [if_pos hpc]
      simp only [Bool.and_eq_true]
      constructor
      · simp [hpc]
      · split
        · rename_i hany
          exact hany
        · rw [List.any_append]
          simp
    · have hrest : relContains rest c = true := by
        unfold relContains at h
        simp only [List.any_cons] at h
        rcases Bool.or_eq_true_iff.mp h with h1 | h1
        · simp [hpc] at h1
        · exact h1
      have hr := ih hrest
      unfold relAddSpender relHasPair at hr
      exact Bool.or_eq_true_iff.mpr (Or.inr hr)

/-- An extraction run preserves every pair already present in the map. -/
theorem extractLoop_pair_mono (lc : Str) : ∀ (txs : List Tx) (m mf : RelMap)
    (c s : Str), extractLoop lc txs m = .ok mf → relHasPair m c s = true →
    relHasPair mf c s = true := by
  intro txs
  induction txs with
  | nil =>
    intro m mf c s hok hp
    simp [extractLoop] at hok
    rw [← hok]
    exact hp
  | cons t rest ih =>
    intro m mf c s hok hp
    cases hs : stepTx lc m t with
    | exited c2 => simp [extractLoop, hs] at hok
    | ok m2 =>
      simp only [extractLoop, hs] at hok
      rcases stepTx_ok_inv hs with heq | ⟨ws, _, _, _, heq⟩
      · subst heq
        exact ih _ _ c s hok hp
      · subst heq
        exact ih _ mf c s hok (relHasPair_add _ _ (relHasPair_ensure _ hp))

/-- An extraction run preserves distinctness of contract keys and of every
spender list. -/
theorem extractLoop_nodup (lc : Str) : ∀ (txs : List Tx) (m mf : RelMap),
    extractLoop lc txs m = .ok mf → (m.map Prod.fst).Nodup →
    (∀ p ∈ m, p.2.Nodup) →
    (mf.map Prod.fst).Nodup ∧ ∀ p ∈ mf, p.2.Nodup := by
  intro txs
  induction txs with
  | nil =>
    intro m mf hok h1 h2
    simp [extractLoop] at hok
    rw [← hok]
    exact ⟨h1, h2⟩
  | cons t rest ih =>
    intro m mf hok h1 h2
    cases hs : stepTx lc m t with
    | exited c2 => simp [extractLoop, hs] at hok
    | ok m2 =>
      simp only [extractLoop, hs] at hok
      rcases stepTx_ok_inv hs with heq | ⟨ws, _, _, _, heq⟩
      · subst heq
        exact ih _ _ hok h1 h2
      · subst heq
        refine ih _ mf hok ?_ ?_
        · rw [relAddSpender_keys]
          exact relEnsureKey_keys_nodup h1
        · exact relAddSpender_snd_nodup (relEnsureKey_snd_nodup h2)

/-- Any included transaction with well-formed call data in the history leaves
its (recipient, spender) pair in the final map. -/
theorem extractLoop_pair_of_mem (lc : Str) : ∀ (txs : List Tx) (m mf : RelMap)
    (tx : Tx) (ws : List Str), tx ∈ txs → includeTx lc tx = true →
    parse_256_method_arguments tx.input = .ok ws → 2 ≤ ws.length →
    extractLoop lc txs m = .ok mf →
    relHasPair mf tx.to_addr (spenderFromArg (ws.headD [])) = true := by
  intro txs
  induction txs with
  | nil =>
    intro m mf tx ws hmem
    exact absurd hmem (List.not_mem_nil tx)
  | cons t rest ih =>
    intro m mf tx ws hmem hi hp hl hok
    rcases List.mem_cons.mp hmem with heq | hmem2
    · subst heq
      have he := stepTx_eq_of_wf m hi hp hl
      simp only [extractLoop, he] at hok
      have hpair : relHasPair (relAddSpender (relEnsureKey m tx.to_addr)
          tx.to_addr (spenderFromArg (ws.headD []))) tx.to_addr
          (spenderFromArg (ws.headD [])) = true :=
        relHasPair_insert _ (relContains_ensure m tx.to_addr)
      exact extractLoop_pair_mono lc rest _ mf _ _ hok hpair
    · cases hs : stepTx lc m t with
      | exited c2 => simp [extractLoop, hs] at hok
      | ok m2 =>
        simp only [extractLoop, hs] at hok
        exact ih m2 mf tx ws hmem2 hi hp hl hok

/-- In a map with distinct contract keys, a present pair is carried by
exactly one entry. -/
theorem countP_pair {c s : Str} : ∀ m : RelMap, (m.map Prod.fst).Nodup →
    relHasPair m c s = true →
    m.countP (fun p => decide (p.1 = c) &&
      p.2.any (fun y => decide (y = s))) = 1 := by
  intro m
  induction m with
  | nil =>
    intro _ h
    simp [relHasPair] at h
  | cons p rest ih =>
    intro hnd hpair
    simp only [List.map_cons, List.nodup_cons] at hnd
    obtain ⟨hnotin, hndrest⟩ := hnd
    rw [List.countP_cons]
    by_cases hpc : p.1 = c
    · have hrest0 : rest.countP (fun p => decide (p.1 = c) &&
          p.2.any (fun y => decide (y = s))) = 0 := by
        apply List.countP_eq_zero.mpr
        intro q hq
        intro hpred
        simp only [Bool.and_eq_true, decide_eq_true_eq] at hpred
        exact hnotin (List.mem_map.mpr ⟨q, hq, hpred.1.trans hpc.symm⟩)
      have hheadany : p.2.any (fun y => decide (y = s)) = true := by
        unfold relHasPair at hpair
        simp only [List.any_cons] at hpair
        rcases Bool.or_eq_true_iff.mp hpair with h1 | h1
        · simp only [Bool.and_eq_true] at h1
          exact h1.2
        · exfalso
          obtain ⟨q, hq, hqpred⟩ := List.any_eq_true.mp h1
          simp only [Bool.and_eq_true, decide_eq_true_eq] at hqpred
          exact hnotin (List.mem_map.mpr ⟨q, hq, hqpred.1.trans hpc.symm⟩)
      rw [hrest0]
      simp [hpc, hheadany]
    · have hpairrest : relHasPair rest c s = true := by
        unfold relHasPair at hpair
        simp only [List.any_cons] at hpair
        rcases Bool.or_eq_true_iff.mp hpair with h1 | h1
        · simp only [Bool.and_eq_true, decide_eq_true_eq] at h1
          exact absurd h1.1 hpc
        · exact h1
      rw [ih hndrest hpairrest]
      simp [hpc]

/-- Inclusion depends only on sender, error flag, and the first 74
characters of the call data. -/
theorem includeTx_take74 {lc : Str} {t t2 : Tx}
    (hfrom : t2.from_addr = t.from_addr) (herr : t2.is_error = t.is_error)
    (htake : t2.input.take 74 = t.input.take 74) :
    includeTx lc t2 = includeTx lc t := by
  unfold includeTx strStarts
  rw [hfrom, herr]
  have hSEL : SEL.length = 10 := by decide
  rw [hSEL]
  have h1 : t2.input.take 10 = (t2.input.take 74).take 10 := by
    rw [List.take_take]
    norm_num
  have h2 : t.input.take 10 = (t.input.take 74).take 10 := by
    rw [List.take_take]
    norm_num
  rw [h1, h2, htake]

/-- One extraction step is unchanged by any modification of the call data
beyond its first 74 characters (the amount region), provided sender,
recipient, error flag and input length are kept. -/
theorem stepTx_take74 (lc : Str) (m : RelMap) {t t2 : Tx}
    (hfrom : t2.from_addr = t.from_addr) (hto : t2.to_addr = t.to_addr)
    (herr : t2.is_error = t.is_error) (hlen : t2.input.length = t.input.length)
    (htake : t2.input.take 74 = t.input.take 74) :
    stepTx lc m t2 = stepTx lc m t := by
  have hincl : includeTx lc t2 = includeTx lc t :=
    includeTx_take74 hfrom herr htake
  by_cases hi : includeTx lc t = true
  · have hi2 : includeTx lc t2 = true := by rw [hincl]; exact hi
    have hlen10 : 10 ≤ t.input.length := by
      unfold includeTx at hi
      simp only [Bool.and_eq_true] at hi
      have hsl := strStarts_length hi.2
      have hSEL : SEL.length = 10 := by decide
      omega
    rcases Nat.lt_or_ge t.input.length 74 with hsm | hbig
    · have hp : parse_256_method_arguments t.input = .err errMsgNotLongEnough :=
        parse_eval_lt74 hlen10 hsm
      have hp2 : parse_256_method_arguments t2.input = .err errMsgNotLongEnough :=
        parse_eval_lt74 (by omega) (by omega)
      simp [stepTx, hi, hi2, hp, hp2]
    · obtain ⟨ws, hpw, hwlen, hwhead⟩ := parse_ge74_obs hbig
      obtain ⟨ws2, hpw2, hwlen2, hwhead2⟩ :=
        parse_ge74_obs (show (74 : Nat) ≤ t2.input.length from by omega)
      have hcount : ws2.length = ws.length := by rw [hwlen, hwlen2, hlen]
      have hhead : ws2.headD [] = ws.headD [] := by
        rw [hwhead, hwhead2, htake]
      by_cases hl : ws.length < 2
      · simp [stepTx, hi, hi2, hpw, hpw2, hcount, hl]
      · simp [stepTx, hi, hi2, hpw, hpw2, hcount, hl, hto, hhead]
        have hheadq : ws2.head?.getD [] = ws.head?.getD [] := by
          simpa using hhead
        rw [hheadq]
  · have hif : includeTx lc t = false := by
      simp only [Bool.not_eq_true] at hi
      exact hi
    have hif2 : includeTx lc t2 = false := by rw [hincl]; exact hif
    rw [stepTx_not_included m hif, stepTx_not_included m hif2]

/-- The whole extraction loop is unchanged by pointwise modifications of the
histories beyond character 74 of each call data. -/
theorem extractLoop_take74 (lc : Str) {txs txs2 : List Tx}
    (hfa : List.Forall₂ (fun t t2 => t2.from_addr = t.from_addr ∧
      t2.to_addr = t.to_addr ∧ t2.is_error = t.is_error ∧
      t2.input.length = t.input.length ∧ t2.input.take 74 = t.input.take 74)
      txs txs2) :
    ∀ m, extractLoop lc txs2 m = extractLoop lc txs m := by
  induction hfa with
  | nil =>
    intro m
    rfl
  | cons hrel hrest ih =>
    intro m
    obtain ⟨h1, h2, h3, h4, h5⟩ := hrel
    simp only [extractLoop]
    rw [stepTx_take74 lc m h1 h2 h3 h4 h5]
    cases stepTx lc m _ with
    | exited c2 => rfl
    | ok m2 => exact ih m2

/-- Extraction is unchanged by pointwise modifications of the history beyond
character 74 of each call data. -/
theorem extract_take74 (owner : Str) {txs txs2 : List Tx}
    (hfa : List.Forall₂ (fun t t2 => t2.from_addr = t.from_addr ∧
      t2.to_addr = t.to_addr ∧ t2.is_error = t.is_error ∧
      t2.input.length = t.input.length ∧ t2.input.take 74 = t.input.take 74)
      txs txs2) :
    extract owner txs2 = extract owner txs := by
  unfold extract
  exact extractLoop_take74 (toLowerStr owner) hfa []

/-- Claim C8.  Over an arbitrary transaction history: whenever extraction
succeeds and the history contains two included approve transactions with the
same recipient and the same spender word (amounts arbitrary, interleaved
with any other transactions), both target the same (contract, spender) pair,
that pair is present in the resulting map, exactly one map entry carries it,
and every spender list is duplicate-free (further re-approvals can add no
second occurrence).  Moreover the amount words never affect the map:
histories that agree pointwise outside character positions 74 and beyond of
each call data (the region after the spender word) extract to the identical
map. -/
theorem C8_idempotent_insertion (owner : Str) (txs txs2 : List Tx) (m : RelMap)
    (tx1 tx2 : Tx) (ws1 ws2 : List Str)
    (hmem1 : tx1 ∈ txs) (hmem2 : tx2 ∈ txs)
    (hinc1 : includeTx (toLowerStr owner) tx1 = true)
    (hinc2 : includeTx (toLowerStr owner) tx2 = true)
    (hto : tx2.to_addr = tx1.to_addr)
    (hp1 : parse_256_method_arguments tx1.input = .ok ws1)
    (hp2 : parse_256_method_arguments tx2.input = .ok ws2)
    (hl1 : 2 ≤ ws1.length) (hl2 : 2 ≤ ws2.length)
    (hw0 : ws2.headD [] = ws1.headD [])
    (hok : extract owner txs = .ok m) :
    (tx2.to_addr, spenderFromArg (ws2.headD [])) =
      (tx1.to_addr, spenderFromArg (ws1.headD [])) ∧
    relHasPair m tx1.to_addr (spenderFromArg (ws1.headD [])) = true ∧
    relHasPair m tx2.to_addr (spenderFromArg (ws2.headD [])) = true ∧
    m.countP (fun p => decide (p.1 = tx1.to_addr) &&
      p.2.any (fun y => decide (y = spenderFromArg (ws1.headD [])))) = 1 ∧
    (∀ p ∈ m, p.2.Nodup) ∧
    (List.Forall₂ (fun t t2 => t2.from_addr = t.from_addr ∧
        t2.to_addr = t.to_addr ∧ t2.is_error = t.is_error ∧
        t2.input.length = t.input.length ∧ t2.input.take 74 = t.input.take 74)
      txs txs2 →
      extract owner txs2 = .ok m) := by
  have hok2 : extractLoop (toLowerStr owner) txs [] = .ok m := hok
  have hpairA := extractLoop_pair_of_mem (toLowerStr owner) txs [] m tx1 ws1
    hmem1 hinc1 hp1 hl1 hok2
  have hpairB := extractLoop_pair_of_mem (toLowerStr owner) txs [] m tx2 ws2
    hmem2 hinc2 hp2 hl2 hok2
  have hnd := extractLoop_nodup (toLowerStr owner) txs [] m hok2 (by simp) (by simp)
  refine ⟨by rw [hto, hw0], hpairA, hpairB, countP_pair m hnd.1 hpairA, hnd.2, ?_⟩
  intro hfa
  rw [extract_take74 owner hfa]
  exact hok

/-- Witness for claim C8: the two-approval history with different amounts
yields a map whose single entry carries the pair exactly once, and swapping
the two amount words leaves the extracted map unchanged. -/
theorem C8_idempotent_insertion_witness :
    ([(ctLc, [spDs])] : RelMap).countP (fun p => decide (p.1 = ctLc) &&
      p.2.any (fun y => decide (y = spDs))) = 1 ∧
    extract ownerAs [txGood2, txGood] = .ok [(ctLc, [spDs])] := by
  have h := C8_idempotent_insertion ownerAs [txGood, txGood2] [txGood2, txGood]
    [(ctLc, [spDs])] txGood txGood2 [wordDs, wordZeros] [wordDs, wordOnes]
    (by decide) (by decide) (by decide) (by decide) (by decide)
    (by decide) (by decide) (by decide) (by decide) (by decide) (by decide)
  constructor
  · exact h.2.2.2.1
  · exact h.2.2.2.2.2 (List.Forall₂.cons (by decide)
      (List.Forall₂.cons (by decide) List.Forall₂.nil))

/-- Claim C9.  `validate_address_format` agrees everywhere with the spec
reading (true iff, ignoring an optional `0x` prefix and letter case, the
string is exactly 40 hexadecimal characters); it depends only on the
lower-cased input, so case variants validate identically; and every
40-hex-digit string validates both with and without the `0x` prefix. -/
theorem C9_validate_format (a b core : Str) :
    validate_address_format a = specValidFormat a ∧
    (toLowerStr a = toLowerStr b →
      validate_address_format a = validate_address_format b) ∧
    (core.length = 40 → core.all isHexDigitAnyCase = true →
      validate_address_format core = true ∧
      validate_address_format (strLit "0x" ++ core) = true) := by
  refine ⟨validate_eq_spec a, ?_, ?_⟩
  · intro h
    unfold validate_address_format
    rw [show toLowerStr a = toLowerStr b from h]
  · intro hlen hall
    constructor
    · rw [validate_eq_spec]
      unfold specValidFormat
      simp [hlen, hall]
    · rw [validate_eq_spec]
      have h0x : (strLit "0x" ++ core) = 48 :: 120 :: core := by
        have h2 : strLit "0x" = [48, 120] := by decide
        rw [h2]
        rfl
      unfold specValidFormat
      rw [h0x]
      simp [hlen, hall]

/-- Witness for claim C9: upper- and lower-case variants of one address
validate identically, and a 40-hex-digit string validates with and without
the prefix. -/
theorem C9_validate_format_witness :
    validate_address_format ownerAsUc = validate_address_format ownerAs ∧
    validate_address_format addr40 = true ∧
    validate_address_format (strLit "0x" ++ addr40) = true := by
  have h := C9_validate_format ownerAsUc ownerAs addr40
  have h2 := h.2.2 (by decide) (by decide)
  exact ⟨h.2.1 (by decide), h2.1, h2.2⟩

/-- Claim C10, amended.  Every address accepted by `validate_address_format`
has length 40 or 42.  For accepted 42-character (`0x`-prefixed) addresses,
`get_address_from_str` returns `Ok` and `perform_check_is_eoa` completes
without panicking; but for accepted bare 40-hex-digit addresses both
functions panic: they unconditionally strip the first two characters, decode
only 19 bytes, and `Address::from_slice` asserts a 20-byte slice. -/
theorem C10_strip_behavior (a : Str) (codeOracle : List Nat → RRes (List Nat))
    (hv : validate_address_format a = true) :
    (a.length = 40 ∨ a.length = 42) ∧
    (a.length = 42 →
      (get_address_from_str a).isOkA = true ∧
      perform_check_is_eoa codeOracle a ≠ .crash) ∧
    (a.length = 40 →
      get_address_from_str a = .crash ∧
      perform_check_is_eoa codeOracle a = .crash) := by
  rcases validate_cases hv with ⟨_, hlen, hall⟩ | ⟨hlen, hall⟩
  · refine ⟨Or.inr hlen, ?_, ?_⟩
    · intro _
      obtain ⟨bs, hbs, hbslen⟩ := hexDecode_ok 20 (a.drop 2)
        (by simp [List.length_drop]; omega) hall
      constructor
      · simp [get_address_from_str, hv, hbs, hbslen, AddrOut.isOkA]
      · simp only [perform_check_is_eoa, hv, hbs, hbslen]
        simp
        cases hc : codeOracle bs with
        | err e => simp [hc]
        | ok code =>
          simp [hc]
          split <;> simp
    · intro h40
      exact ((by omega : False)).elim
  · refine ⟨Or.inl hlen, ?_, ?_⟩
    · intro h42
      exact ((by omega : False)).elim
    · intro _
      obtain ⟨bs, hbs, hbslen⟩ := hexDecode_ok 19 (a.drop 2)
        (by simp [List.length_drop]; omega)
        (fun c hc => hall c (List.mem_of_mem_drop hc))
      constructor
      · simp [get_address_from_str, hv, hbs, hbslen]
      · simp [perform_check_is_eoa, hv, hbs, hbslen]

/-- Witness for claim C10: the prefixed owner address is accepted and both
functions complete without panicking on it. -/
theorem C10_strip_behavior_witness :
    (get_address_from_str ownerAs).isOkA = true ∧
    perform_check_is_eoa codeOracleEmpty ownerAs ≠ .crash :=
  (C10_strip_behavior ownerAs codeOracleEmpty (by decide)).2.1 (by decide)

/-- Counterexample to claim C10 as stated: the bare 40-hex-digit address is
accepted by `validate_address_format`, yet both `get_address_from_str` and
`perform_check_is_eoa` panic on it instead of returning an `Ok` or `Err`
value. -/
theorem C10_counterexample :
    validate_address_format addr40 = true ∧
    get_address_from_str addr40 = .crash ∧
    perform_check_is_eoa codeOracleEmpty addr40 = .crash := by
  refine ⟨by decide, by decide, by decide⟩
